import Mathlib

/-!
Shallow embedding of the `wall_maze` module of the maze-solver repository
(`src/wall_maze/mod.rs`), together with theorems settling the frozen claims.

Conventions of the embedding:
* Rust `usize` values that are always small grid coordinates are embedded as `Nat`
  (no arithmetic in the source ever overflows or underflows: every subtraction is
  guarded by a comparison, exactly as in the source).
* `Result<T, String>` is embedded as `Except String T`.  The formatted `format!`
  messages of the source are embedded as fixed strings carrying the same wording
  with the interpolated values elided.
* The const generics `WIDTH`/`HEIGHT` become explicit `Nat` parameters `W`/`H`.
* `InteriorPosition<WIDTH, HEIGHT>` is a pair of bounded numbers, so it is
  embedded as `Fin W × Fin H` (the type itself carries the bounds invariant,
  exactly as the Rust type does).
* `HashMap<InteriorPosition, Vec<InteriorPosition>>` (used only through `get`,
  `insert` and `contains_key`) is embedded as a function
  `Pos W H → Option (List (Pos W H))`.
* `Vec::sort_by(|a, b| cmp.reverse())` is a stable descending sort followed by
  `pop` of the last element.  All stable sorts of a list under the same total
  preorder produce the same output, so it is embedded with the (stable)
  `List.insertionSort` under the reversed comparison, followed by taking the
  last element.
* The `loop` in `WallMaze::solve` is embedded with explicit fuel; running out of
  fuel yields `none`.  The termination theorem below proves that with fuel
  `W * H + 1` (one tick per loop iteration, bounded by the number of grid
  cells plus the final exit iteration) the result is never `none`.
-/

namespace MazeSolver

/-- Decidable equality for `Except` (needed to evaluate concrete runs of the
embedded fallible operations). -/
instance {ε α : Type _} [DecidableEq ε] [DecidableEq α] : DecidableEq (Except ε α)
  | .ok a, .ok b =>
    if h : a = b then .isTrue (congrArg Except.ok h)
    else .isFalse (fun hc => h (Except.ok.inj hc))
  | .error a, .error b =>
    if h : a = b then .isTrue (congrArg Except.error h)
    else .isFalse (fun hc => h (Except.error.inj hc))
  | .ok _, .error _ => .isFalse (fun hc => Except.noConfusion hc)
  | .error _, .ok _ => .isFalse (fun hc => Except.noConfusion hc)

/-- Embeds `enum Orientation { Horizontal, Vertical }`. -/
inductive Orientation where
  | Horizontal
  | Vertical
deriving DecidableEq, Repr

/-- Embeds `struct Wall { x: usize, y: usize, orientation: Orientation }`. -/
structure Wall where
  x : Nat
  y : Nat
  orientation : Orientation
deriving DecidableEq, Repr

/-- The validity invariant carried by the Rust type `InteriorWall<WIDTH, HEIGHT>`:
the wall is in bounds and does not lie on the exterior boundary (a vertical wall
must not sit at `x = WIDTH - 1`, a horizontal wall must not sit at
`y = HEIGHT - 1`).  These are exactly the conditions checked by
`InteriorWall::new`. -/
def IsInteriorWall (W H : Nat) (w : Wall) : Prop :=
  w.x < W ∧ w.y < H ∧ ¬(w.x = W - 1 ∧ w.orientation = .Vertical) ∧
    ¬(w.y = H - 1 ∧ w.orientation = .Horizontal)

instance (W H : Nat) (w : Wall) : Decidable (IsInteriorWall W H w) :=
  inferInstanceAs (Decidable (w.x < W ∧ w.y < H ∧
    ¬(w.x = W - 1 ∧ w.orientation = .Vertical) ∧
    ¬(w.y = H - 1 ∧ w.orientation = .Horizontal)))

/-- Embeds `struct InteriorWall<const WIDTH: usize, const HEIGHT: usize>`: a
`Wall` together with the validity invariant enforced by its constructors. -/
def InteriorWall (W H : Nat) : Type := {w : Wall // IsInteriorWall W H w}

instance (W H : Nat) : DecidableEq (InteriorWall W H) :=
  inferInstanceAs (DecidableEq {w : Wall // IsInteriorWall W H w})

/-- Embeds `InteriorWall::<WIDTH, HEIGHT>::new(x, y, orientation)`, with the
checks in source order. -/
def InteriorWall.new (W H : Nat) (x y : Nat) (o : Orientation) :
    Except String (InteriorWall W H) :=
  if hx : W ≤ x then
    .error "x coordinate is out of bounds for width"
  else if hy : H ≤ y then
    .error "y coordinate is out of bounds for height"
  else if hv : x = W - 1 ∧ o = .Vertical then
    .error "x coordinate is out of bounds for width (the wall would be on the edge of the maze)"
  else if hh : y = H - 1 ∧ o = .Horizontal then
    .error "y coordinate is out of bounds for height (the wall would be on the edge of the maze)"
  else
    .ok ⟨⟨x, y, o⟩, Nat.lt_of_not_le hx, Nat.lt_of_not_le hy, hv, hh⟩

/-- Embeds `InteriorWall::from_wall(wall)`. -/
def InteriorWall.from_wall (W H : Nat) (w : Wall) : Except String (InteriorWall W H) :=
  InteriorWall.new W H w.x w.y w.orientation

/-- Embeds `InteriorPosition<WIDTH, HEIGHT>`: an (x, y) pair with
`x < WIDTH` and `y < HEIGHT`, invariants carried by the type. -/
abbrev Pos (W H : Nat) : Type := Fin W × Fin H

/-- Embeds `InteriorPosition::get_x`. -/
def Pos.x {W H : Nat} (p : Pos W H) : Nat := p.1.val

/-- Embeds `InteriorPosition::get_y`. -/
def Pos.y {W H : Nat} (p : Pos W H) : Nat := p.2.val

/-- Embeds `InteriorPosition::<WIDTH, HEIGHT>::new(x, y)`, with the checks in
source order. -/
def Pos.new (W H : Nat) (x y : Nat) : Except String (Pos W H) :=
  if hx : W ≤ x then
    .error "x coordinate is out of bounds for width"
  else if hy : H ≤ y then
    .error "y coordinate is out of bounds for height"
  else
    .ok (⟨x, by omega⟩, ⟨y, by omega⟩)

/-- Embeds `InteriorPosition::adjacent_positions`: the in-bounds neighbors in
source order (left, right, up, down).  The source constructs each neighbor with
`Self::new(..).unwrap()`; here the bound proofs come from the guards. -/
def Pos.adjacent_positions {W H : Nat} (p : Pos W H) : List (Pos W H) :=
  (if h : 0 < p.1.val then [(⟨p.1.val - 1, by omega⟩, p.2)] else []) ++
  (if h : p.1.val < W - 1 then [(⟨p.1.val + 1, by omega⟩, p.2)] else []) ++
  (if h : 0 < p.2.val then [(p.1, ⟨p.2.val - 1, by omega⟩)] else []) ++
  (if h : p.2.val < H - 1 then [(p.1, ⟨p.2.val + 1, by omega⟩)] else [])

/-- Embeds `InteriorPosition::min_distance` (Manhattan distance, with the
three-way comparisons of the source rendered as `if` chains). -/
def Pos.min_distance {W H : Nat} (p q : Pos W H) : Nat :=
  (if p.x < q.x then q.x - p.x else if q.x < p.x then p.x - q.x else 0) +
  (if p.y < q.y then q.y - p.y else if q.y < p.y then p.y - q.y else 0)

/-- Embeds `InteriorPosition::adjacent_to` (`self.adjacent_positions().contains(&other)`). -/
def Pos.adjacent_to {W H : Nat} (p q : Pos W H) : Bool :=
  decide (q ∈ p.adjacent_positions)

/-- Embeds `InteriorWall::from_position_and_orientation(pos, orientation)`:
the boundary pre-check of the source, then delegation to `InteriorWall::new`. -/
def InteriorWall.from_position_and_orientation {W H : Nat} (pos : Pos W H)
    (o : Orientation) : Except String (InteriorWall W H) :=
  match o with
  | .Horizontal =>
    if pos.y = H - 1 then
      .error "y coordinate is out of bounds for height (the wall would be on the edge of the maze)"
    else
      InteriorWall.new W H pos.x pos.y o
  | .Vertical =>
    if pos.x = W - 1 then
      .error "x coordinate is out of bounds for width (the wall would be on the edge of the maze)"
    else
      InteriorWall.new W H pos.x pos.y o

/-- Embeds `struct WallMaze<const WIDTH: usize, const HEIGHT: usize>`.
The Rust field `end` is a Lean keyword, hence the quoted field name. -/
structure WallMaze (W H : Nat) where
  start : Pos W H
  «end» : Pos W H
  walls : List (InteriorWall W H)
deriving DecidableEq

/-- Embeds `InteriorPosition::separated_by_wall(self, other, maze)`: the
adjacency guard, then the three-way comparisons of the source (rendered as `if`
chains), each branch building the unique candidate wall and testing membership
in the maze's wall list. -/
def Pos.separated_by_wall {W H : Nat} (p q : Pos W H) (maze : WallMaze W H) :
    Except String Bool :=
  if !(p.adjacent_to q) then
    .error "positions are not adjacent"
  else if p.x < q.x then do
    let w ← InteriorWall.from_position_and_orientation p .Vertical
    pure (decide (w ∈ maze.walls))
  else if q.x < p.x then do
    let w ← InteriorWall.from_position_and_orientation q .Vertical
    pure (decide (w ∈ maze.walls))
  else if p.y < q.y then do
    let w ← InteriorWall.from_position_and_orientation p .Horizontal
    pure (decide (w ∈ maze.walls))
  else if q.y < p.y then do
    let w ← InteriorWall.from_position_and_orientation q .Horizontal
    pure (decide (w ∈ maze.walls))
  else
    .error "positions are the same"

/-- The wall-separation test as used inside `WallMaze::solve`: the source calls
`adj.separated_by_wall(next, self).unwrap()` on positions that are guaranteed
adjacent, so the `Err` case is unreachable there (`sepB_of_adjacent` below
proves it).  The `false` in the unreachable branch is arbitrary. -/
def sepB {W H : Nat} (p q : Pos W H) (maze : WallMaze W H) : Bool :=
  match p.separated_by_wall q maze with
  | .ok b => b
  | .error _ => false

/-- Embeds the body of the `for adj in adjacents` loop of `WallMaze::solve`:
state is the pair (unchecked, path_to); every not-yet-visited, not
wall-separated neighbor is appended to `unchecked` and recorded in `path_to`
with the path to `next` extended by the neighbor. -/
def expand {W H : Nat} (maze : WallMaze W H) (next : Pos W H) :
    List (Pos W H) × (Pos W H → Option (List (Pos W H))) → List (Pos W H) →
    List (Pos W H) × (Pos W H → Option (List (Pos W H)))
  | s, [] => s
  | s, adj :: rest =>
    if (s.2 adj).isSome then
      expand maze next s rest
    else if sepB adj next maze then
      expand maze next s rest
    else
      expand maze next
        (s.1 ++ [adj],
         fun p => if p = adj then some (((s.2 next).getD []) ++ [adj]) else s.2 p)
        rest

/-- One iteration of the non-trivial case of the `loop` in `WallMaze::solve`
(`unchecked` non-empty, `end` not yet recorded): stable-sort `unchecked` by
descending `f`-value (`min_distance` to `end` plus recorded path length,
mirroring the closure `value` and `sort_by(.. .reverse())` of the source), pop
the last element (the minimum), and expand its adjacent positions. -/
def stepState {W H : Nat} (maze : WallMaze W H) (a : Pos W H) (rest : List (Pos W H))
    (pt : Pos W H → Option (List (Pos W H))) :
    List (Pos W H) × (Pos W H → Option (List (Pos W H))) :=
  let value : Pos W H → Nat := fun pos =>
    pos.min_distance maze.«end» + ((pt pos).getD []).length
  let sorted := (a :: rest).insertionSort (fun p q => value q ≤ value p)
  let next := sorted.getLastD a
  expand maze next (sorted.dropLast, pt) next.adjacent_positions

/-- Embeds the `loop` of `WallMaze::solve` with explicit fuel (`none` = fuel
exhausted, proven unreachable for fuel `W * H + 1`).  Each iteration first
checks whether `end` has a recorded path (success), then whether `unchecked` is
empty (`NoPath` failure), and otherwise performs `stepState`. -/
def solveLoop {W H : Nat} (maze : WallMaze W H) :
    Nat → List (Pos W H) → (Pos W H → Option (List (Pos W H))) →
    Option (Except String (List (Pos W H)))
  | 0, _, _ => none
  | fuel + 1, unchecked, pt =>
    match pt maze.«end» with
    | some path => some (.ok path)
    | none =>
      match unchecked with
      | [] => some (.error "No path found from start to end")
      | a :: rest =>
        let s := stepState maze a rest pt
        solveLoop maze fuel s.1 s.2

/-- Embeds `WallMaze::solve`: the search starts from `unchecked = [start]` and
`path_to = start ↦ [start]`.  Fuel `W * H + 1` covers every loop iteration
(at most one pop per grid cell, plus the final exit check). -/
def WallMaze.solve {W H : Nat} (m : WallMaze W H) :
    Option (Except String (List (Pos W H))) :=
  solveLoop m (W * H + 1) [m.start]
    (fun p => if p = m.start then some [m.start] else none)

/-- Embeds `WallMaze::solveable` (`self.solve().is_ok()`).  The `none` (fuel
exhausted) case is unreachable by the termination theorem. -/
def WallMaze.solveable {W H : Nat} (m : WallMaze W H) : Bool :=
  match m.solve with
  | some (.ok _) => true
  | _ => false

/-- Embeds `WallMaze::new(start, end)`: rejects equal start and end, yields an
empty wall list. -/
def WallMaze.new {W H : Nat} (start «end» : Pos W H) : Except String (WallMaze W H) :=
  if start = «end» then
    .error "Start position cannot be the same as end position"
  else
    .ok ⟨start, «end», []⟩

/-- Embeds `WallMaze::from_walls(start, end, walls)`: builds the maze and
rejects it only if it is not solvable (note: no duplicate-wall or equal
start/end check in the source). -/
def WallMaze.from_walls {W H : Nat} (start «end» : Pos W H)
    (walls : List (InteriorWall W H)) : Except String (WallMaze W H) :=
  let maze : WallMaze W H := ⟨start, «end», walls⟩
  if !maze.solveable then
    .error "Maze is not solvable with the given walls"
  else
    .ok maze

/-- Embeds `WallMaze::remove_wall`: `Vec::iter().position(..)` is the first
matching index, `Vec::remove(pos)` removes at that index.  Mutation of `&mut
self` is embedded by returning the result together with the post-call state. -/
def WallMaze.remove_wall {W H : Nat} (m : WallMaze W H) (w : InteriorWall W H) :
    Except String Unit × WallMaze W H :=
  match m.walls.findIdx? (fun v => v = w) with
  | some i => (.ok (), { m with walls := m.walls.eraseIdx i })
  | none => (.error "Wall not found in the maze", m)

/-- Embeds `WallMaze::add_interior_wall`: duplicate check, speculative
`Vec::push`, solvability check, `Vec::pop` on failure. -/
def WallMaze.add_interior_wall {W H : Nat} (m : WallMaze W H)
    (w : InteriorWall W H) : Except String Unit × WallMaze W H :=
  if w ∈ m.walls then
    (.error "Wall already exists in the maze", m)
  else
    let m1 : WallMaze W H := { m with walls := m.walls ++ [w] }
    if m1.solveable then
      (.ok (), m1)
    else
      (.error "Wall would make the maze unsolvable",
       { m1 with walls := m1.walls.dropLast })

/-- Embeds `WallMaze::add_wall`: validation through `InteriorWall::from_wall`,
then delegation to `add_interior_wall`. -/
def WallMaze.add_wall {W H : Nat} (m : WallMaze W H) (w : Wall) :
    Except String Unit × WallMaze W H :=
  match InteriorWall.from_wall W H w with
  | .error e => (.error e, m)
  | .ok iw => m.add_interior_wall iw

/-- Embeds `WallMaze::move_start`: the probe maze is built with
`WallMaze::new(new_start, self.start)` — which, as in the source, has an
empty wall list; a construction error (equal positions) is turned into a
successful no-op. -/
def WallMaze.move_start {W H : Nat} (m : WallMaze W H) (new_start : Pos W H) :
    Except String Unit × WallMaze W H :=
  match WallMaze.new new_start m.start with
  | .error _ => (.ok (), m)
  | .ok probe =>
    if probe.solveable then
      (.ok (), { m with start := new_start })
    else
      (.error "New start position would make the maze unsolvable", m)

/-- Embeds `WallMaze::flip_start_end`. -/
def WallMaze.flip_start_end {W H : Nat} (m : WallMaze W H) : WallMaze W H :=
  { m with start := m.«end», «end» := m.start }

/-- Embeds `WallMaze::move_end`: flip, delegate to `move_start`, flip back on
either outcome (replacing the error message on failure, as the source does). -/
def WallMaze.move_end {W H : Nat} (m : WallMaze W H) (new_end : Pos W H) :
    Except String Unit × WallMaze W H :=
  let m1 := m.flip_start_end
  match m1.move_start new_end with
  | (.ok _, m2) => (.ok (), m2.flip_start_end)
  | (.error _, m2) =>
    (.error "New end position would make the maze unsolvable", m2.flip_start_end)

/-- The public mutating operations of `WallMaze` (the subjects of the
invariant and atomicity claims). -/
inductive MazeOp (W H : Nat) where
  | addWall (w : Wall)
  | addInteriorWall (w : InteriorWall W H)
  | removeWall (w : InteriorWall W H)
  | moveStart (p : Pos W H)
  | moveEnd (p : Pos W H)
  | flip

/-- Applies one public mutating operation, returning the call's result and the
post-call state (`flip_start_end` always succeeds in the source). -/
def applyOp {W H : Nat} (m : WallMaze W H) : MazeOp W H →
    Except String Unit × WallMaze W H
  | .addWall w => m.add_wall w
  | .addInteriorWall w => m.add_interior_wall w
  | .removeWall w => m.remove_wall w
  | .moveStart p => m.move_start p
  | .moveEnd p => m.move_end p
  | .flip => (.ok (), m.flip_start_end)

/-! ### Paths and reachability -/

/-- One step of the search graph: `b` is a grid neighbor of `a` and the two are
not separated by a wall of `m` (the exact test `WallMaze::solve` performs when
it examines the neighbor `b` of the expanded position `a`). -/
def Step {W H : Nat} (m : WallMaze W H) (a b : Pos W H) : Prop :=
  b ∈ a.adjacent_positions ∧ sepB b a m = false

instance {W H : Nat} (m : WallMaze W H) : DecidableRel (Step m) := fun a b =>
  inferInstanceAs (Decidable (b ∈ a.adjacent_positions ∧ sepB b a m = false))

/-- A wall-respecting path from `p` to `q` exists in `m`. -/
def Reachable {W H : Nat} (m : WallMaze W H) (p q : Pos W H) : Prop :=
  Relation.ReflTransGen (Step m) p q

/-- Kernel-reducible decidability of `List.Chain` (the Mathlib instance is
built with tactics and does not reduce under `decide`). -/
def decidableChainFn {α : Type _} (R : α → α → Prop) [DecidableRel R] (a : α) :
    (l : List α) → Decidable (List.Chain R a l)
  | [] => isTrue List.Chain.nil
  | b :: l =>
    haveI : Decidable (List.Chain R b l) := decidableChainFn R b l
    decidable_of_iff (R a b ∧ List.Chain R b l) List.chain_cons.symm

instance (priority := 2000) instDecidableChainP {α : Type _} (R : α → α → Prop)
    [DecidableRel R] : (l : List α) → Decidable (List.Chain' R l)
  | [] => isTrue trivial
  | a :: l => decidableChainFn R a l

/-- `path` is a valid wall-respecting path of `m` from `s` to `t`: nonempty,
starting at `s`, ending at `t`, with every consecutive pair grid-adjacent and
not wall-separated. -/
def ValidPath {W H : Nat} (m : WallMaze W H) (s t : Pos W H)
    (path : List (Pos W H)) : Prop :=
  path.head? = some s ∧ path.getLast? = some t ∧ path.Chain' (Step m)

instance {W H : Nat} (m : WallMaze W H) (s t : Pos W H) (path : List (Pos W H)) :
    Decidable (ValidPath m s t path) :=
  inferInstanceAs (Decidable (path.head? = some s ∧ path.getLast? = some t ∧
    path.Chain' (Step m)))

/-- The number of recorded keys (used for the termination measure). -/
def keysCard {W H : Nat} (pt : Pos W H → Option (List (Pos W H))) : Nat :=
  (Finset.univ.filter (fun p => (pt p).isSome)).card

/-! ### The loop invariant of `WallMaze::solve` -/

/-- Invariant of the search loop: the start is recorded; every frontier member
is recorded; every recorded path is valid; and every recorded position is
either still in the frontier or fully expanded (all its not wall-separated
neighbors are recorded). -/
structure LoopInv {W H : Nat} (m : WallMaze W H) (un : List (Pos W H))
    (pt : Pos W H → Option (List (Pos W H))) : Prop where
  start_key : (pt m.start).isSome
  un_keys : ∀ p ∈ un, (pt p).isSome
  valid : ∀ p path, pt p = some path → ValidPath m m.start p path
  closed : ∀ p, (pt p).isSome → p ∈ un ∨
    ∀ q ∈ p.adjacent_positions, sepB q p m = false → (pt q).isSome

/-! ### Concrete instances used by the claim theorems -/

/-- C1 scenario: 3×3 maze, start (0,0), end (2,2). -/
def c1start : Pos 3 3 := (⟨0, by decide⟩, ⟨0, by decide⟩)

def c1endP : Pos 3 3 := (⟨2, by decide⟩, ⟨2, by decide⟩)

/-- Wall between (0,1) and (0,2). -/
def c1w1 : InteriorWall 3 3 := ⟨⟨0, 1, Orientation.Horizontal⟩, by decide⟩

/-- Wall between (0,2) and (1,2). -/
def c1w2 : InteriorWall 3 3 := ⟨⟨0, 2, Orientation.Vertical⟩, by decide⟩

def c1m0 : WallMaze 3 3 := ⟨c1start, c1endP, []⟩

def c1m1 : WallMaze 3 3 := ⟨c1start, c1endP, [c1w1]⟩

def c1m2 : WallMaze 3 3 := ⟨c1start, c1endP, [c1w1, c1w2]⟩

/-- The cell (0,2), sealed off by the two walls above. -/
def c1p : Pos 3 3 := (⟨0, by decide⟩, ⟨2, by decide⟩)

def c1m3 : WallMaze 3 3 := ⟨c1p, c1endP, [c1w1, c1w2]⟩

/-- C2 scenario: same wall layout, fresh definitions. -/
def c2m : WallMaze 3 3 :=
  ⟨(⟨0, by decide⟩, ⟨0, by decide⟩), (⟨2, by decide⟩, ⟨2, by decide⟩),
   [⟨⟨0, 1, Orientation.Horizontal⟩, by decide⟩, ⟨⟨0, 2, Orientation.Vertical⟩, by decide⟩]⟩

def c2p : Pos 3 3 := (⟨0, by decide⟩, ⟨2, by decide⟩)

/-- The probe maze the specification prescribes for `move_start` (new start to
old start under the CURRENT walls) — the code instead uses an empty wall set. -/
def c2probe : WallMaze 3 3 := ⟨c2p, c2m.start, c2m.walls⟩

/-- C3 counterexample maze: 3×3, start (2,2), end (0,0),
walls Vertical(0,0), Horizontal(0,1), Vertical(1,1). -/
def c3maze : WallMaze 3 3 :=
  ⟨(⟨2, by decide⟩, ⟨2, by decide⟩), (⟨0, by decide⟩, ⟨0, by decide⟩),
   [⟨⟨0, 0, Orientation.Vertical⟩, by decide⟩, ⟨⟨0, 1, Orientation.Horizontal⟩, by decide⟩,
    ⟨⟨1, 1, Orientation.Vertical⟩, by decide⟩]⟩

/-- The (6-step) path the solver actually returns on `c3maze`. -/
def c3solvePath : List (Pos 3 3) :=
  [(⟨2, by decide⟩, ⟨2, by decide⟩), (⟨2, by decide⟩, ⟨1, by decide⟩),
   (⟨2, by decide⟩, ⟨0, by decide⟩), (⟨1, by decide⟩, ⟨0, by decide⟩),
   (⟨1, by decide⟩, ⟨1, by decide⟩), (⟨0, by decide⟩, ⟨1, by decide⟩),
   (⟨0, by decide⟩, ⟨0, by decide⟩)]

/-- A strictly shorter (4-step) valid path through `c3maze`. -/
def c3shortPath : List (Pos 3 3) :=
  [(⟨2, by decide⟩, ⟨2, by decide⟩), (⟨1, by decide⟩, ⟨2, by decide⟩),
   (⟨1, by decide⟩, ⟨1, by decide⟩), (⟨0, by decide⟩, ⟨1, by decide⟩),
   (⟨0, by decide⟩, ⟨0, by decide⟩)]

/-- Witness maze for the amended C3 statement. -/
def c3wit : WallMaze 2 2 := ⟨(⟨0, by decide⟩, ⟨0, by decide⟩), (⟨0, by decide⟩, ⟨1, by decide⟩), []⟩

/-- Witness maze for C4. -/
def c4m : WallMaze 2 2 := ⟨(⟨0, by decide⟩, ⟨0, by decide⟩), (⟨1, by decide⟩, ⟨1, by decide⟩), []⟩

/-- The path the solver returns on `c4m`. -/
def c4path : List (Pos 2 2) :=
  [(⟨0, by decide⟩, ⟨0, by decide⟩), (⟨0, by decide⟩, ⟨1, by decide⟩),
   (⟨1, by decide⟩, ⟨1, by decide⟩)]

/-- Witness maze for C5. -/
def c5m : WallMaze 2 2 := ⟨(⟨0, by decide⟩, ⟨0, by decide⟩), (⟨1, by decide⟩, ⟨1, by decide⟩), []⟩

def c5w : InteriorWall 2 2 := ⟨⟨0, 0, Orientation.Vertical⟩, by decide⟩

/-- C8 scenario: 3×3 maze, start (0,0), end (2,2), walls added one by one. -/
def c8w1 : InteriorWall 3 3 := ⟨⟨0, 0, Orientation.Vertical⟩, by decide⟩

def c8w2 : InteriorWall 3 3 := ⟨⟨0, 1, Orientation.Horizontal⟩, by decide⟩

def c8m0 : WallMaze 3 3 := ⟨(⟨0, by decide⟩, ⟨0, by decide⟩), (⟨2, by decide⟩, ⟨2, by decide⟩), []⟩

def c8m1 : WallMaze 3 3 := ⟨c8m0.start, c8m0.«end», [c8w1]⟩

def c8m2 : WallMaze 3 3 := ⟨c8m0.start, c8m0.«end», [c8w1, c8w2]⟩

/-- C9 counterexample: `from_walls` accepts a duplicated wall list. -/
def c9w : InteriorWall 2 2 := ⟨⟨0, 0, Orientation.Vertical⟩, by decide⟩

def c9m : WallMaze 2 2 :=
  ⟨(⟨0, by decide⟩, ⟨0, by decide⟩), (⟨1, by decide⟩, ⟨1, by decide⟩), [c9w, c9w]⟩

def c9m1 : WallMaze 2 2 :=
  ⟨(⟨0, by decide⟩, ⟨0, by decide⟩), (⟨1, by decide⟩, ⟨1, by decide⟩), [c9w]⟩

/-! ### Adjacency lemmas -/

/-- Coordinate characterization of membership in `adjacent_positions`. -/
theorem Pos.mem_adjacent_positions_iff {W H : Nat} {p q : Pos W H} :
    q ∈ p.adjacent_positions ↔
      (q.y = p.y ∧ (q.x + 1 = p.x ∨ p.x + 1 = q.x)) ∨
      (q.x = p.x ∧ (q.y + 1 = p.y ∨ p.y + 1 = q.y)) := by
  obtain ⟨⟨px, hpx⟩, ⟨py, hpy⟩⟩ := p
  obtain ⟨⟨qx, hqx⟩, ⟨qy, hqy⟩⟩ := q
  simp only [Pos.adjacent_positions, Pos.x, Pos.y, List.mem_append]
  split_ifs with h1 h2 h3 h4 <;>
    simp only [List.mem_singleton, List.not_mem_nil, Prod.mk.injEq, Fin.mk.injEq,
      false_or, or_false, false_iff] <;>
    omega

/-- Grid adjacency is symmetric. -/
theorem Pos.adjacent_comm {W H : Nat} {p q : Pos W H} :
    q ∈ p.adjacent_positions ↔ p ∈ q.adjacent_positions := by
  simp only [Pos.mem_adjacent_positions_iff]
  omega

/-- Extending a valid path by one step. -/
theorem ValidPath.append_step {W H : Nat} {m : WallMaze W H} {s t u : Pos W H}
    {path : List (Pos W H)} (hv : ValidPath m s t path) (hstep : Step m t u) :
    ValidPath m s u (path ++ [u]) := by
  obtain ⟨h1, h2, h3⟩ := hv
  refine ⟨?_, ?_, ?_⟩
  · cases path with
    | nil => simp at h1
    | cons a as => simpa using h1
  · simp [List.getLast?_concat]
  · rw [List.chain'_append]
    refine ⟨h3, List.chain'_singleton u, ?_⟩
    intro x hx y hy
    simp only [List.head?_cons, Option.mem_def, Option.some.injEq] at hy
    rw [h2] at hx
    simp only [Option.mem_def, Option.some.injEq] at hx
    rw [← hx, ← hy]
    exact hstep

/-- A valid path witnesses reachability. -/
theorem ValidPath.reachable {W H : Nat} {m : WallMaze W H} :
    ∀ (path : List (Pos W H)) (s t : Pos W H), ValidPath m s t path →
      Reachable m s t := by
  intro path
  induction path with
  | nil => intro s t hv; simp [ValidPath] at hv
  | cons a as ih =>
    intro s t hv
    obtain ⟨h1, h2, h3⟩ := hv
    simp only [List.head?_cons, Option.some.injEq] at h1
    subst h1
    cases as with
    | nil =>
      simp only [List.getLast?_singleton, Option.some.injEq] at h2
      subst h2
      exact Relation.ReflTransGen.refl
    | cons b bs =>
      rw [List.chain'_cons] at h3
      refine Relation.ReflTransGen.head h3.1 (ih b t ⟨rfl, ?_, h3.2⟩)
      simpa using h2

/-- In a maze with no walls, no two positions are ever wall-separated. -/
theorem sepB_nil {W H : Nat} {m : WallMaze W H} (hw : m.walls = []) (p q : Pos W H) :
    sepB p q m = false := by
  unfold sepB Pos.separated_by_wall
  rw [hw]
  rcases h1 : InteriorWall.from_position_and_orientation p Orientation.Vertical with e1 | w1 <;>
  rcases h2 : InteriorWall.from_position_and_orientation q Orientation.Vertical with e2 | w2 <;>
  rcases h3 : InteriorWall.from_position_and_orientation p Orientation.Horizontal with e3 | w3 <;>
  rcases h4 : InteriorWall.from_position_and_orientation q Orientation.Horizontal with e4 | w4 <;>
  simp [h1, h2, h3, h4] <;> split_ifs <;> rfl

/-- Closed form of `min_distance` in terms of truncated subtraction. -/
theorem min_distance_val {W H : Nat} (p q : Pos W H) :
    p.min_distance q = (q.1.val - p.1.val) + (p.1.val - q.1.val) +
      ((q.2.val - p.2.val) + (p.2.val - q.2.val)) := by
  unfold Pos.min_distance Pos.x Pos.y
  split_ifs <;> omega

/-- In a wall-free maze every grid-adjacency is a search step. -/
theorem step_of_adjacent_nil {W H : Nat} {m : WallMaze W H} (hw : m.walls = [])
    {a b : Pos W H} (hab : b ∈ a.adjacent_positions) : Step m a b :=
  ⟨hab, sepB_nil hw b a⟩

/-- In a maze with no walls every position reaches every position (staircase
walk, by strong induction on the Manhattan distance). -/
theorem reachable_of_walls_nil {W H : Nat} {m : WallMaze W H} (hw : m.walls = [])
    (q : Pos W H) : ∀ (n : Nat) (p : Pos W H), p.min_distance q = n → Reachable m p q := by
  intro n
  induction n using Nat.strong_induction_on with
  | _ n ih =>
    intro p hd
    rcases eq_or_ne p q with rfl | hne
    · exact Relation.ReflTransGen.refl
    have hq1 := q.1.isLt
    have hq2 := q.2.isLt
    have hp1 := p.1.isLt
    have hp2 := p.2.isLt
    rw [min_distance_val] at hd
    have hxy : p.1.val ≠ q.1.val ∨ p.2.val ≠ q.2.val := by
      by_contra hc
      push_neg at hc
      exact hne (Prod.ext (Fin.ext hc.1) (Fin.ext hc.2))
    rcases Nat.lt_trichotomy p.1.val q.1.val with hx | hx | hx
    · have hb : p.1.val + 1 < W := by omega
      have hmem : ((⟨p.1.val + 1, hb⟩, p.2) : Pos W H) ∈ p.adjacent_positions :=
        Pos.mem_adjacent_positions_iff.mpr (Or.inl ⟨rfl, Or.inr rfl⟩)
      have hdd : Pos.min_distance ((⟨p.1.val + 1, hb⟩, p.2) : Pos W H) q =
          (q.1.val - (p.1.val + 1)) + ((p.1.val + 1) - q.1.val) +
            ((q.2.val - p.2.val) + (p.2.val - q.2.val)) := min_distance_val _ _
      refine Relation.ReflTransGen.head (step_of_adjacent_nil hw hmem) (ih _ ?_ _ hdd)
      omega
    · rcases hxy with hx' | hy
      · exact absurd hx hx'
      rcases Nat.lt_trichotomy p.2.val q.2.val with hy' | hy' | hy'
      · have hb : p.2.val + 1 < H := by omega
        have hmem : ((p.1, ⟨p.2.val + 1, hb⟩) : Pos W H) ∈ p.adjacent_positions :=
          Pos.mem_adjacent_positions_iff.mpr (Or.inr ⟨rfl, Or.inr rfl⟩)
        have hdd : Pos.min_distance ((p.1, ⟨p.2.val + 1, hb⟩) : Pos W H) q =
            (q.1.val - p.1.val) + (p.1.val - q.1.val) +
              ((q.2.val - (p.2.val + 1)) + ((p.2.val + 1) - q.2.val)) := min_distance_val _ _
        refine Relation.ReflTransGen.head (step_of_adjacent_nil hw hmem) (ih _ ?_ _ hdd)
        omega
      · exact absurd hy' hy
      · have hb : p.2.val - 1 < H := by omega
        have hmem : ((p.1, ⟨p.2.val - 1, hb⟩) : Pos W H) ∈ p.adjacent_positions := by
          refine Pos.mem_adjacent_positions_iff.mpr (Or.inr ⟨rfl, Or.inl ?_⟩)
          show p.2.val - 1 + 1 = p.2.val
          omega
        have hdd : Pos.min_distance ((p.1, ⟨p.2.val - 1, hb⟩) : Pos W H) q =
            (q.1.val - p.1.val) + (p.1.val - q.1.val) +
              ((q.2.val - (p.2.val - 1)) + ((p.2.val - 1) - q.2.val)) := min_distance_val _ _
        refine Relation.ReflTransGen.head (step_of_adjacent_nil hw hmem) (ih _ ?_ _ hdd)
        omega
    · have hb : p.1.val - 1 < W := by omega
      have hmem : ((⟨p.1.val - 1, hb⟩, p.2) : Pos W H) ∈ p.adjacent_positions := by
        refine Pos.mem_adjacent_positions_iff.mpr (Or.inl ⟨rfl, Or.inl ?_⟩)
        show p.1.val - 1 + 1 = p.1.val
        omega
      have hdd : Pos.min_distance ((⟨p.1.val - 1, hb⟩, p.2) : Pos W H) q =
          (q.1.val - (p.1.val - 1)) + ((p.1.val - 1) - q.1.val) +
            ((q.2.val - p.2.val) + (p.2.val - q.2.val)) := min_distance_val _ _
      refine Relation.ReflTransGen.head (step_of_adjacent_nil hw hmem) (ih _ ?_ _ hdd)
      omega

/-! ### Properties of the neighbor-expansion step -/

/-- `expand` never changes an entry that is already recorded. -/
theorem expand_snd_mono {W H : Nat} (m : WallMaze W H) (next : Pos W H) :
    ∀ (l : List (Pos W H)) (s : List (Pos W H) × (Pos W H → Option (List (Pos W H))))
      (p : Pos W H), (s.2 p).isSome → (expand m next s l).2 p = s.2 p := by
  intro l
  induction l with
  | nil => intro s p _; rfl
  | cons adj rest ih =>
    intro s p hp
    unfold expand
    by_cases h1 : (s.2 adj).isSome
    · rw [if_pos h1]
      exact ih s p hp
    · by_cases h2 : sepB adj next m
      · rw [if_neg h1, if_pos h2]
        exact ih s p hp
      · rw [if_neg h1, if_neg h2]
        have hne : p ≠ adj := fun he => h1 (he ▸ hp)
        have hup : ((fun r => if r = adj then some (((s.2 next).getD []) ++ [adj])
            else s.2 r) p).isSome := by
          simp only [if_neg hne]; exact hp
        rw [ih _ p hup]
        simp only [if_neg hne]

/-- Recorded entries stay recorded through `expand`. -/
theorem expand_snd_isSome {W H : Nat} (m : WallMaze W H) (next : Pos W H)
    (l : List (Pos W H)) (s : List (Pos W H) × (Pos W H → Option (List (Pos W H))))
    (p : Pos W H) (hp : (s.2 p).isSome) : ((expand m next s l).2 p).isSome := by
  rw [expand_snd_mono m next l s p hp]; exact hp

/-- Any entry changed by `expand` is a fresh neighbor from the processed list,
not wall-separated from `next`, and records the path to `next` extended by the
neighbor. -/
theorem expand_snd_new {W H : Nat} (m : WallMaze W H) (next : Pos W H) :
    ∀ (l : List (Pos W H)) (s : List (Pos W H) × (Pos W H → Option (List (Pos W H))))
      (p : Pos W H), (s.2 next).isSome → (expand m next s l).2 p ≠ s.2 p →
      p ∈ l ∧ s.2 p = none ∧ sepB p next m = false ∧
        (expand m next s l).2 p = some (((s.2 next).getD []) ++ [p]) := by
  intro l
  induction l with
  | nil => intro s p _ hch; exact absurd rfl hch
  | cons adj rest ih =>
    intro s p hnext hch
    unfold expand at hch ⊢
    by_cases h1 : (s.2 adj).isSome
    · rw [if_pos h1] at hch ⊢
      obtain ⟨ha, hb, hc, hd⟩ := ih s p hnext hch
      exact ⟨List.mem_cons_of_mem _ ha, hb, hc, hd⟩
    · by_cases h2 : sepB adj next m
      · rw [if_neg h1, if_pos h2] at hch ⊢
        obtain ⟨ha, hb, hc, hd⟩ := ih s p hnext hch
        exact ⟨List.mem_cons_of_mem _ ha, hb, hc, hd⟩
      · rw [if_neg h1, if_neg h2] at hch ⊢
        have hadj_next : adj ≠ next := fun he => h1 (he ▸ hnext)
        by_cases hpa : p = adj
        · subst hpa
          have hupd_p : ((fun r => if r = p then some (((s.2 next).getD []) ++ [p])
              else s.2 r) p).isSome := by simp
          have hmono := expand_snd_mono m next rest
            (s.1 ++ [p], fun r => if r = p then some (((s.2 next).getD []) ++ [p])
              else s.2 r) p hupd_p
          refine ⟨List.mem_cons_self _ _, ?_, ?_, ?_⟩
          · cases hsp : s.2 p with
            | none => rfl
            | some v => rw [hsp] at h1; exact absurd rfl h1
          · cases hb : sepB p next m with
            | true => exact absurd hb h2
            | false => rfl
          · rw [hmono]; simp
        · have hupd_next : ((fun r => if r = adj then some (((s.2 next).getD []) ++ [adj])
              else s.2 r) next).isSome := by
            simp only [if_neg (Ne.symm hadj_next)]; exact hnext
          have hch' : (expand m next
              (s.1 ++ [adj], fun r => if r = adj then some (((s.2 next).getD []) ++ [adj])
                else s.2 r) rest).2 p
              ≠ (fun r => if r = adj then some (((s.2 next).getD []) ++ [adj])
                else s.2 r) p := by
            simp only [if_neg hpa]
            exact hch
          obtain ⟨ha, hb, hc, hd⟩ := ih _ p hupd_next hch'
          simp only [if_neg hpa] at hb
          simp only [if_neg (Ne.symm hadj_next)] at hd
          exact ⟨List.mem_cons_of_mem _ ha, hb, hc, hd⟩

theorem keysCard_insert {W H : Nat} (pt : Pos W H → Option (List (Pos W H)))
    (a : Pos W H) (v : List (Pos W H)) (ha : pt a = none) :
    keysCard (fun p => if p = a then some v else pt p) = keysCard pt + 1 := by
  unfold keysCard
  have hset : (Finset.univ.filter (fun p => ((fun r => if r = a then some v else pt r) p).isSome))
      = insert a (Finset.univ.filter (fun p => (pt p).isSome)) := by
    ext r
    simp only [Finset.mem_filter, Finset.mem_univ, true_and, Finset.mem_insert]
    by_cases hr : r = a <;> simp [hr, ha]
  rw [hset, Finset.card_insert_of_not_mem]
  simp [ha]

theorem keysCard_le {W H : Nat} (pt : Pos W H → Option (List (Pos W H))) :
    keysCard pt ≤ W * H := by
  unfold keysCard
  calc (Finset.univ.filter (fun p => (pt p).isSome)).card
      ≤ Finset.univ.card := Finset.card_filter_le _ _
    _ = W * H := by
        rw [Finset.card_univ]
        simp [Fintype.card_prod]

/-- The unchecked list grows by exactly the freshly recorded neighbors, and the
key count grows by their number. -/
theorem expand_fst {W H : Nat} (m : WallMaze W H) (next : Pos W H) :
    ∀ (l : List (Pos W H)) (s : List (Pos W H) × (Pos W H → Option (List (Pos W H)))),
      ∃ pushed : List (Pos W H),
        (expand m next s l).1 = s.1 ++ pushed ∧
        keysCard (expand m next s l).2 = keysCard s.2 + pushed.length ∧
        (∀ p, (expand m next s l).2 p ≠ s.2 p → p ∈ pushed) ∧
        (∀ p ∈ pushed, ((expand m next s l).2 p).isSome) := by
  intro l
  induction l with
  | nil =>
    intro s
    exact ⟨[], by simp [expand], by simp [expand], fun p hp => absurd rfl hp,
      fun p hp => absurd hp (List.not_mem_nil p)⟩
  | cons adj rest ih =>
    intro s
    unfold expand
    by_cases h1 : (s.2 adj).isSome
    · rw [if_pos h1]; exact ih s
    · by_cases h2 : sepB adj next m
      · rw [if_neg h1, if_pos h2]; exact ih s
      · rw [if_neg h1, if_neg h2]
        have hnone : s.2 adj = none := by
          cases hsp : s.2 adj with
          | none => rfl
          | some v => rw [hsp] at h1; exact absurd rfl h1
        obtain ⟨pushed, hfst, hcard, hnew, hsome⟩ :=
          ih (s.1 ++ [adj], fun r => if r = adj then some (((s.2 next).getD []) ++ [adj]) else s.2 r)
        refine ⟨adj :: pushed, ?_, ?_, ?_, ?_⟩
        · rw [hfst]; simp
        · rw [hcard, keysCard_insert _ adj _ hnone]
          simp only [List.length_cons]
          omega
        · intro p hp
          by_cases hpa : p = adj
          · exact hpa ▸ List.mem_cons_self _ _
          · refine List.mem_cons_of_mem _ (hnew p ?_)
            intro he
            apply hp
            rw [he]
            simp only [if_neg hpa]
        · intro p hp
          rcases List.mem_cons.mp hp with rfl | hp'
          · refine expand_snd_isSome m next rest _ p ?_
            simp
          · exact hsome p hp'

/-- After `expand` over a full neighbor list, every not wall-separated neighbor
of `next` is recorded. -/
theorem expand_cover {W H : Nat} (m : WallMaze W H) (next : Pos W H) :
    ∀ (l : List (Pos W H)) (s : List (Pos W H) × (Pos W H → Option (List (Pos W H))))
      (r : Pos W H), r ∈ l → sepB r next m = false →
      ((expand m next s l).2 r).isSome := by
  intro l
  induction l with
  | nil => intro s r hr; exact absurd hr (List.not_mem_nil r)
  | cons adj rest ih =>
    intro s r hr hsep
    unfold expand
    rcases List.mem_cons.mp hr with rfl | hr'
    · by_cases h1 : (s.2 r).isSome
      · rw [if_pos h1]
        exact expand_snd_isSome m next rest s r h1
      · have h2 : ¬ sepB r next m = true := by simp [hsep]
        rw [if_neg h1, if_neg h2]
        refine expand_snd_isSome m next rest _ r ?_
        simp
    · by_cases h1 : (s.2 adj).isSome
      · rw [if_pos h1]; exact ih s r hr' hsep
      · by_cases h2 : sepB adj next m
        · rw [if_neg h1, if_pos h2]; exact ih s r hr' hsep
        · rw [if_neg h1, if_neg h2]; exact ih _ r hr' hsep

/-- `expand` preserves validity of all recorded paths. -/
theorem expand_valid {W H : Nat} (m : WallMaze W H) (next : Pos W H)
    (l : List (Pos W H)) (s : List (Pos W H) × (Pos W H → Option (List (Pos W H))))
    (s0 : Pos W H)
    (hval : ∀ p path, s.2 p = some path → ValidPath m s0 p path)
    (hnext : (s.2 next).isSome)
    (hl : ∀ x ∈ l, x ∈ next.adjacent_positions) :
    ∀ p path, (expand m next s l).2 p = some path → ValidPath m s0 p path := by
  intro p path hp
  by_cases hch : (expand m next s l).2 p = s.2 p
  · rw [hch] at hp
    exact hval p path hp
  · obtain ⟨hmem, _, hsep, heq⟩ := expand_snd_new m next l s p hnext hch
    obtain ⟨pnext, hpn⟩ := Option.isSome_iff_exists.mp hnext
    rw [heq, hpn] at hp
    simp only [Option.getD_some, Option.some.injEq] at hp
    rw [← hp]
    exact ValidPath.append_step (hval next pnext hpn) ⟨hl p hmem, hsep⟩

/-- One loop iteration preserves the invariant and decreases the measure
`frontier length + (cells − recorded keys)` by exactly one. -/
theorem stepState_preserves {W H : Nat} (m : WallMaze W H) (a : Pos W H)
    (rest : List (Pos W H)) (pt : Pos W H → Option (List (Pos W H)))
    (hinv : LoopInv m (a :: rest) pt) :
    LoopInv m (stepState m a rest pt).1 (stepState m a rest pt).2 ∧
      (stepState m a rest pt).1.length + (W * H - keysCard (stepState m a rest pt).2) + 1 =
        (a :: rest).length + (W * H - keysCard pt) := by
  unfold stepState
  set value : Pos W H → Nat := fun pos =>
    pos.min_distance m.«end» + ((pt pos).getD []).length with hvalue
  set sorted := (a :: rest).insertionSort (fun p q => value q ≤ value p) with hsorted
  set next := sorted.getLastD a with hnextd
  have hperm : sorted.Perm (a :: rest) := List.perm_insertionSort _ _
  have hlen : sorted.length = rest.length + 1 := by
    rw [hsorted, List.length_insertionSort, List.length_cons]
  have hne : sorted ≠ [] := by
    intro h
    rw [h] at hlen
    simp at hlen
  have hnext_last : next = sorted.getLast hne := by
    rw [hnextd, List.getLastD_eq_getLast?, List.getLast?_eq_getLast sorted hne,
      Option.getD_some]
  have hnext_mem : next ∈ a :: rest :=
    hperm.mem_iff.mp (hnext_last ▸ List.getLast_mem hne)
  have hsplit : sorted.dropLast ++ [next] = sorted := by
    rw [hnext_last]
    exact List.dropLast_concat_getLast hne
  have hnext_some : (pt next).isSome := hinv.un_keys next hnext_mem
  have hdrop_sub : ∀ x ∈ sorted.dropLast, x ∈ a :: rest := fun x hx =>
    hperm.mem_iff.mp ((List.dropLast_sublist sorted).subset hx)
  obtain ⟨pushed, hfst, hcard, hnew_mem, hpushed_some⟩ :=
    expand_fst m next next.adjacent_positions (sorted.dropLast, pt)
  have hKle : keysCard (expand m next (sorted.dropLast, pt) next.adjacent_positions).2
      ≤ W * H := keysCard_le _
  constructor
  · refine ⟨?_, ?_, ?_, ?_⟩
    · exact expand_snd_isSome m next _ _ _ hinv.start_key
    · intro p hp
      rw [hfst] at hp
      rcases List.mem_append.mp hp with hl | hr
      · exact expand_snd_isSome m next _ _ _ (hinv.un_keys p (hdrop_sub p hl))
      · exact hpushed_some p hr
    · exact expand_valid m next next.adjacent_positions (sorted.dropLast, pt)
        m.start hinv.valid hnext_some (fun x hx => hx)
    · intro p hp
      by_cases hch : (expand m next (sorted.dropLast, pt) next.adjacent_positions).2 p = pt p
      · rw [hch] at hp
        rcases hinv.closed p hp with hin | hcov
        · have hpsorted : p ∈ sorted := hperm.mem_iff.mpr hin
          rw [← hsplit] at hpsorted
          rcases List.mem_append.mp hpsorted with hd | hl
          · left
            rw [hfst]
            exact List.mem_append.mpr (Or.inl hd)
          · have hpn : p = next := by simpa using hl
            right
            intro r hr hsep
            subst hpn
            exact expand_cover m next next.adjacent_positions (sorted.dropLast, pt) r hr hsep
        · right
          intro r hr hsep
          exact expand_snd_isSome m next _ _ _ (hcov r hr hsep)
      · left
        rw [hfst]
        exact List.mem_append.mpr (Or.inr (hnew_mem p hch))
  · rw [hfst, List.length_append, List.length_dropLast, hlen, hcard]
    have hK : keysCard pt + pushed.length ≤ W * H := hcard ▸ hKle
    simp only [List.length_cons]
    omega

/-! ### Running the loop: termination, soundness, completeness -/

/-- With fuel exceeding the measure, the loop always reaches an exit. -/
theorem solveLoop_isSome {W H : Nat} (m : WallMaze W H) :
    ∀ (fuel : Nat) (un : List (Pos W H)) (pt : Pos W H → Option (List (Pos W H))),
      LoopInv m un pt → un.length + (W * H - keysCard pt) < fuel →
      (solveLoop m fuel un pt).isSome := by
  intro fuel
  induction fuel with
  | zero => intro un pt _ h; omega
  | succ fuel ih =>
    intro un pt hinv hmu
    cases hend : pt m.«end» with
    | some path => simp [solveLoop, hend]
    | none =>
      cases un with
      | nil => simp [solveLoop, hend]
      | cons a rest =>
        have hstep := stepState_preserves m a rest pt hinv
        simp only [solveLoop, hend]
        refine ih _ _ hstep.1 ?_
        have := hstep.2
        simp only [List.length_cons] at this hmu ⊢
        omega

/-- Any `Ok` result of the loop is a valid path from start to end. -/
theorem solveLoop_ok_valid {W H : Nat} (m : WallMaze W H) :
    ∀ (fuel : Nat) (un : List (Pos W H)) (pt : Pos W H → Option (List (Pos W H)))
      (path : List (Pos W H)),
      LoopInv m un pt → solveLoop m fuel un pt = some (.ok path) →
      ValidPath m m.start m.«end» path := by
  intro fuel
  induction fuel with
  | zero => intro un pt path _ h; simp [solveLoop] at h
  | succ fuel ih =>
    intro un pt path hinv hrun
    cases hend : pt m.«end» with
    | some path0 =>
      simp only [solveLoop, hend, Option.some.injEq] at hrun
      injection hrun with hrun
      exact hrun ▸ hinv.valid m.«end» path0 hend
    | none =>
      cases un with
      | nil => simp [solveLoop, hend] at hrun
      | cons a rest =>
        simp only [solveLoop, hend] at hrun
        exact ih _ _ path (stepState_preserves m a rest pt hinv).1 hrun

/-- Any `Err` result of the loop means the end is unreachable from the start. -/
theorem solveLoop_err {W H : Nat} (m : WallMaze W H) :
    ∀ (fuel : Nat) (un : List (Pos W H)) (pt : Pos W H → Option (List (Pos W H)))
      (e : String),
      LoopInv m un pt → solveLoop m fuel un pt = some (.error e) →
      ¬ Reachable m m.start m.«end» := by
  intro fuel
  induction fuel with
  | zero => intro un pt e _ h; simp [solveLoop] at h
  | succ fuel ih =>
    intro un pt e hinv hrun
    cases hend : pt m.«end» with
    | some path0 => simp [solveLoop, hend] at hrun
    | none =>
      cases un with
      | nil =>
        intro hre
        have hkeys : ∀ r, Reachable m m.start r → (pt r).isSome := by
          intro r hr
          induction hr with
          | refl => exact hinv.start_key
          | tail hab hbc ih2 =>
            rcases hinv.closed _ ih2 with hin | hcov
            · exact absurd hin (List.not_mem_nil _)
            · exact hcov _ hbc.1 hbc.2
        have := hkeys m.«end» hre
        rw [hend] at this
        simp at this
      | cons a rest =>
        simp only [solveLoop, hend] at hrun
        exact ih _ _ e (stepState_preserves m a rest pt hinv).1 hrun

/-- The invariant holds at the initial state of `WallMaze::solve`. -/
theorem solve_init_inv {W H : Nat} (m : WallMaze W H) :
    LoopInv m [m.start] (fun p => if p = m.start then some [m.start] else none) := by
  refine ⟨?_, ?_, ?_, ?_⟩
  · simp
  · intro p hp
    simp only [List.mem_singleton] at hp
    simp [hp]
  · intro p path hp
    by_cases hps : p = m.start
    · subst hps
      rw [if_pos rfl] at hp
      injection hp with hp
      subst hp
      exact ⟨rfl, rfl, List.chain'_singleton _⟩
    · simp [if_neg hps] at hp
  · intro p hp
    left
    by_cases hps : p = m.start
    · simp [hps]
    · simp [if_neg hps] at hp

theorem keysCard_init {W H : Nat} (m : WallMaze W H) :
    keysCard (fun p => if p = m.start then some [m.start] else none) = 1 := by
  unfold keysCard
  have hset : (Finset.univ.filter
      (fun p => ((fun r => if r = m.start then some [m.start] else none) p).isSome))
      = {m.start} := by
    ext r
    by_cases hr : r = m.start <;> simp [hr]
  rw [hset, Finset.card_singleton]

/-- Termination: `solve` (with its fuel `W * H + 1`) always reaches an exit. -/
theorem solve_isSome {W H : Nat} (m : WallMaze W H) : (m.solve).isSome := by
  unfold WallMaze.solve
  apply solveLoop_isSome m (W * H + 1) _ _ (solve_init_inv m)
  have h1 : (1 : Nat) ≤ W * H := by
    have := keysCard_le (fun p => if p = m.start then some [m.start] else none)
    rw [keysCard_init] at this
    exact this
  rw [keysCard_init]
  simp only [List.length_singleton]
  omega

/-- Soundness of `solve`: an `Ok` result is a valid path. -/
theorem solve_ok_valid {W H : Nat} {m : WallMaze W H} {path : List (Pos W H)}
    (h : m.solve = some (.ok path)) : ValidPath m m.start m.«end» path :=
  solveLoop_ok_valid m (W * H + 1) _ _ path (solve_init_inv m) h

/-- Completeness direction: an `Err` result means no path exists. -/
theorem solve_err_not_reachable {W H : Nat} {m : WallMaze W H} {e : String}
    (h : m.solve = some (.error e)) : ¬ Reachable m m.start m.«end» :=
  solveLoop_err m (W * H + 1) _ _ e (solve_init_inv m) h

/-- Completeness: when a path exists, `solve` returns `Ok`. -/
theorem solve_ok_of_reachable {W H : Nat} {m : WallMaze W H}
    (h : Reachable m m.start m.«end») : ∃ path, m.solve = some (.ok path) := by
  obtain ⟨r, hr⟩ := Option.isSome_iff_exists.mp (solve_isSome m)
  cases r with
  | ok path => exact ⟨path, hr⟩
  | error e => exact absurd h (solve_err_not_reachable hr)

/-- An `Ok` result of `solve` witnesses reachability. -/
theorem solve_ok_reachable {W H : Nat} {m : WallMaze W H} {path : List (Pos W H)}
    (h : m.solve = some (.ok path)) : Reachable m m.start m.«end» :=
  ValidPath.reachable path _ _ (solve_ok_valid h)

/-- `solveable` decides reachability. -/
theorem solveable_iff {W H : Nat} (m : WallMaze W H) :
    m.solveable = true ↔ Reachable m m.start m.«end» := by
  unfold WallMaze.solveable
  rcases hs : m.solve with _ | r
  · have := solve_isSome m
    rw [hs] at this
    simp at this
  · cases r with
    | ok path =>
      exact ⟨fun _ => solve_ok_reachable hs, fun _ => rfl⟩
    | error e =>
      simp only [Bool.false_eq_true, false_iff]
      exact solve_err_not_reachable hs

/-! ### The mutation protocol -/

/-- Characterization of `move_start` as implemented: because the probe maze is
built by `WallMaze::new` with an **empty** wall list, the probe is always
solvable (the wall-free grid is connected), so the operation always succeeds,
committing the new start whenever it differs from the current one. -/
theorem move_start_eq {W H : Nat} (m : WallMaze W H) (ns : Pos W H) :
    m.move_start ns = (.ok (), if ns = m.start then m else { m with start := ns }) := by
  unfold WallMaze.move_start WallMaze.new
  by_cases h : ns = m.start
  · simp only [if_pos h]
  · simp only [if_neg h]
    have hs : (⟨ns, m.start, []⟩ : WallMaze W H).solveable = true := by
      rw [solveable_iff]
      exact reachable_of_walls_nil rfl m.start (Pos.min_distance ns m.start) ns rfl
    simp [hs]

/-- Flipping twice is the identity. -/
theorem flip_flip {W H : Nat} (m : WallMaze W H) :
    m.flip_start_end.flip_start_end = m := rfl

/-- Characterization of `move_end` as implemented: always succeeds, committing
the new end whenever it differs from the current one. -/
theorem move_end_eq {W H : Nat} (m : WallMaze W H) (ne : Pos W H) :
    m.move_end ne = (.ok (), if ne = m.«end» then m else { m with «end» := ne }) := by
  unfold WallMaze.move_end
  simp only [move_start_eq]
  by_cases h : ne = m.«end»
  · simp only [WallMaze.flip_start_end, if_pos h]
  · simp only [WallMaze.flip_start_end, if_neg h]

/-- When start equals end, `solve` exits immediately with the singleton path. -/
theorem solve_of_start_eq_end {W H : Nat} (m : WallMaze W H) (h : m.start = m.«end») :
    m.solve = some (.ok [m.start]) := by
  have he : m.«end» = m.start := h.symm
  unfold WallMaze.solve
  simp [solveLoop, he]

/-- A failing `add_interior_wall` restores the wall list exactly (`push` then
`pop`). -/
theorem add_interior_wall_error {W H : Nat} (m : WallMaze W H) (w : InteriorWall W H)
    (e : String) (h : (m.add_interior_wall w).1 = .error e) :
    (m.add_interior_wall w).2 = m := by
  unfold WallMaze.add_interior_wall at h ⊢
  by_cases h1 : w ∈ m.walls
  · rw [if_pos h1]
  · rw [if_neg h1] at h ⊢
    by_cases h2 : ({ m with walls := m.walls ++ [w] } : WallMaze W H).solveable
    · rw [if_pos h2] at h
      exact absurd h (by simp)
    · rw [if_neg h2]
      simp [List.dropLast_concat]

/-- A failing `add_interior_wall` keeps the wall list duplicate-free, and a
successful one extends it by a wall that was not present. -/
theorem add_interior_wall_nodup {W H : Nat} (m : WallMaze W H) (w : InteriorWall W H)
    (h : m.walls.Nodup) : ((m.add_interior_wall w).2).walls.Nodup := by
  unfold WallMaze.add_interior_wall
  by_cases h1 : w ∈ m.walls
  · rw [if_pos h1]
    exact h
  · rw [if_neg h1]
    by_cases h2 : ({ m with walls := m.walls ++ [w] } : WallMaze W H).solveable
    · rw [if_pos h2]
      refine List.nodup_append.mpr ⟨h, List.nodup_singleton w, ?_⟩
      intro a ha hw
      simp only [List.mem_singleton] at hw
      exact h1 (hw ▸ ha)
    · rw [if_neg h2]
      simpa [List.dropLast_concat] using h

/-- Every public mutation that reports an error leaves the maze unchanged. -/
theorem applyOp_error_preserves {W H : Nat} (m : WallMaze W H) (op : MazeOp W H)
    (e : String) (h : (applyOp m op).1 = .error e) : (applyOp m op).2 = m := by
  cases op with
  | addWall w =>
    simp only [applyOp, WallMaze.add_wall] at h ⊢
    cases hfw : InteriorWall.from_wall W H w with
    | error e' => rfl
    | ok iw =>
      rw [hfw] at h
      exact add_interior_wall_error m iw e h
  | addInteriorWall w =>
    exact add_interior_wall_error m w e h
  | removeWall w =>
    simp only [applyOp, WallMaze.remove_wall] at h ⊢
    cases hf : m.walls.findIdx? (fun v => decide (v = w)) with
    | some i =>
      rw [hf] at h
      exact absurd h (by simp)
    | none => rfl
  | moveStart p =>
    have := move_start_eq m p
    simp only [applyOp, this] at h
    exact absurd h (by simp)
  | moveEnd p =>
    have := move_end_eq m p
    simp only [applyOp, this] at h
    exact absurd h (by simp)
  | flip =>
    exact absurd h (by simp [applyOp])

/-- Every public mutation preserves duplicate-freeness of the wall list. -/
theorem applyOp_nodup {W H : Nat} (m : WallMaze W H) (op : MazeOp W H)
    (h : m.walls.Nodup) : ((applyOp m op).2).walls.Nodup := by
  cases op with
  | addWall w =>
    simp only [applyOp, WallMaze.add_wall]
    cases hfw : InteriorWall.from_wall W H w with
    | error e => exact h
    | ok iw => exact add_interior_wall_nodup m iw h
  | addInteriorWall w =>
    simp only [applyOp]
    exact add_interior_wall_nodup m w h
  | removeWall w =>
    simp only [applyOp, WallMaze.remove_wall]
    cases hf : m.walls.findIdx? (fun v => decide (v = w)) with
    | some i => simpa using h.eraseIdx i
    | none => exact h
  | moveStart p =>
    show ((m.move_start p).2).walls.Nodup
    rw [move_start_eq]
    by_cases hp : p = m.start <;> simp [hp, h]
  | moveEnd p =>
    show ((m.move_end p).2).walls.Nodup
    rw [move_end_eq]
    by_cases hp : p = m.«end» <;> simp [hp, h]
  | flip => exact h

/-! ### The claims -/

/-- C1: the claim states that after every sequence of successful public
mutations the maze stays solvable.  The code violates it: `move_start`
validates against a probe built by `WallMaze::new`, whose wall list is empty,
so the check ignores the maze's walls.  On a 3×3 maze with start (0,0), end
(2,2), the walls Horizontal(0,1) and Vertical(0,2) (both accepted) seal off
the cell (0,2); `move_start((0,2))` nevertheless succeeds, and `solve` on the
resulting state returns the `NoPath` error.  This contradicts the module's own
documentation ("the maze maintains a guarantee of solvability at all times"),
so the claim is recorded as a code bug; this theorem evaluates the code at the
failing input. -/
theorem claim_c1_invariant_violated :
    WallMaze.new c1start c1endP = Except.ok c1m0 ∧
    c1m0.add_wall ⟨0, 1, Orientation.Horizontal⟩ = (Except.ok (), c1m1) ∧
    c1m1.add_wall ⟨0, 2, Orientation.Vertical⟩ = (Except.ok (), c1m2) ∧
    c1m2.move_start c1p = (Except.ok (), c1m3) ∧
    c1m3.solve = some (Except.error "No path found from start to end") := by
  decide

/-- C2: the claim states that `move_start(newStart)` succeeds exactly when a
wall-respecting path from `newStart` to the current start exists under the
current walls.  The code instead always succeeds (its probe maze has an empty
wall list): here `move_start` commits although the new start is sealed off
from the old start by the current walls (the prescribed probe maze `c2probe`
is not solvable and its start cannot reach its end).  Recorded as a code bug;
this theorem evaluates the code at the failing input. -/
theorem claim_c2_move_start_ignores_walls :
    c2m.move_start c2p = (Except.ok (), ⟨c2p, c2m.«end», c2m.walls⟩) ∧
    c2probe.solve = some (Except.error "No path found from start to end") ∧
    ¬ Reachable c2probe c2probe.start c2probe.«end» := by
  refine ⟨by decide, by decide, ?_⟩
  exact solve_err_not_reachable
    (show c2probe.solve = some (Except.error "No path found from start to end") by decide)

/-- C3 (counterexample): the claim states that `solve` always returns a
shortest path.  On `c3maze` the solver returns a path of 6 steps while a valid
path of 4 steps exists, so the claim is false. -/
theorem claim_c3_counterexample :
    c3maze.solve = some (Except.ok c3solvePath) ∧
    c3solvePath.length - 1 = 6 ∧
    ValidPath c3maze c3maze.start c3maze.«end» c3shortPath ∧
    c3shortPath.length - 1 = 4 := by
  decide

/-- C3 (amended): whenever a wall-respecting path from start to end exists,
`solve` returns `Ok` with a valid path from start to end — but that path is
not necessarily shortest. -/
theorem claim_c3_amended {W H : Nat} (m : WallMaze W H)
    (h : Reachable m m.start m.«end») :
    ∃ path, m.solve = some (Except.ok path) ∧
      ValidPath m m.start m.«end» path := by
  obtain ⟨path, hp⟩ := solve_ok_of_reachable h
  exact ⟨path, hp, solve_ok_valid hp⟩

/-- C3 (witness for the amended statement): on the 2×2 wall-free maze the
hypothesis holds by a single step and the conclusion follows. -/
theorem claim_c3_amended_witness :
    ∃ path, c3wit.solve = some (Except.ok path) ∧
      ValidPath c3wit c3wit.start c3wit.«end» path :=
  claim_c3_amended c3wit (Relation.ReflTransGen.single ⟨by decide, by decide⟩)

/-- C4: every `Ok` result of `solve` is a valid path — in-bounds by the type
`Pos W H` of its elements, starting at `start`, ending at `end`, each
consecutive pair grid-adjacent and not wall-separated — and `solve` returns
the `NoPath` error exactly when no wall-respecting path from start to end
exists. -/
theorem claim_c4_solve_correct {W H : Nat} (m : WallMaze W H) :
    (∀ path, m.solve = some (Except.ok path) →
      ValidPath m m.start m.«end» path) ∧
    ((∃ e, m.solve = some (Except.error e)) ↔
      ¬ Reachable m m.start m.«end») := by
  refine ⟨fun path h => solve_ok_valid h, ?_, ?_⟩
  · rintro ⟨e, he⟩
    exact solve_err_not_reachable he
  · intro hnr
    obtain ⟨r, hr⟩ := Option.isSome_iff_exists.mp (solve_isSome m)
    cases r with
    | ok p => exact absurd (solve_ok_reachable hr) hnr
    | error e => exact ⟨e, hr⟩

/-- C4 (witness): the solver's concrete answer on a 2×2 empty maze is a valid
path, obtained by applying the claim theorem. -/
theorem claim_c4_witness : ValidPath c4m c4m.start c4m.«end» c4path :=
  (claim_c4_solve_correct c4m).1 c4path (by decide)

/-- C5: whenever a public mutation (`add_wall`, `add_interior_wall`,
`remove_wall`, `move_start`, `move_end` — and trivially `flip`) returns an
error, the post-call maze (wall set, start, end) equals the pre-call maze. -/
theorem claim_c5_error_atomicity {W H : Nat} (m : WallMaze W H) (op : MazeOp W H)
    (e : String) (h : (applyOp m op).1 = Except.error e) : (applyOp m op).2 = m :=
  applyOp_error_preserves m op e h

/-- C5 (witness): removing an absent wall fails and leaves the maze intact. -/
theorem claim_c5_witness :
    (applyOp c5m (MazeOp.removeWall c5w)).1 = Except.error "Wall not found in the maze" ∧
    (applyOp c5m (MazeOp.removeWall c5w)).2 = c5m :=
  ⟨by decide, claim_c5_error_atomicity c5m (MazeOp.removeWall c5w)
    "Wall not found in the maze" (by decide)⟩

/-- C6: for any in-bounds coordinates, a `Vertical` wall at `x = W - 1` and a
`Horizontal` wall at `y = H - 1` are rejected with the exterior-boundary error
by both `InteriorWall::new` and `from_position_and_orientation`, and every
other in-bounds combination is accepted. -/
theorem claim_c6_boundary_rejection (W H x y : Nat) (hx : x < W) (hy : y < H) :
    (x = W - 1 →
      InteriorWall.new W H x y Orientation.Vertical = Except.error
        "x coordinate is out of bounds for width (the wall would be on the edge of the maze)" ∧
      InteriorWall.from_position_and_orientation ((⟨x, hx⟩, ⟨y, hy⟩) : Pos W H)
          Orientation.Vertical = Except.error
        "x coordinate is out of bounds for width (the wall would be on the edge of the maze)") ∧
    (y = H - 1 →
      InteriorWall.new W H x y Orientation.Horizontal = Except.error
        "y coordinate is out of bounds for height (the wall would be on the edge of the maze)" ∧
      InteriorWall.from_position_and_orientation ((⟨x, hx⟩, ⟨y, hy⟩) : Pos W H)
          Orientation.Horizontal = Except.error
        "y coordinate is out of bounds for height (the wall would be on the edge of the maze)") ∧
    (∀ o : Orientation, ¬(x = W - 1 ∧ o = Orientation.Vertical) →
      ¬(y = H - 1 ∧ o = Orientation.Horizontal) →
      (∃ iw, InteriorWall.new W H x y o = Except.ok iw) ∧
      (∃ iw, InteriorWall.from_position_and_orientation ((⟨x, hx⟩, ⟨y, hy⟩) : Pos W H) o
        = Except.ok iw)) := by
  refine ⟨?_, ?_, ?_⟩
  · intro hxe
    constructor
    · unfold InteriorWall.new
      rw [dif_neg (by omega), dif_neg (by omega), dif_pos ⟨hxe, rfl⟩]
    · unfold InteriorWall.from_position_and_orientation
      simp only [Pos.x]
      rw [if_pos hxe]
  · intro hye
    constructor
    · unfold InteriorWall.new
      rw [dif_neg (by omega), dif_neg (by omega)]
      have hnv : ¬(x = W - 1 ∧ Orientation.Horizontal = Orientation.Vertical) := by
        rintro ⟨-, hc⟩
        exact Orientation.noConfusion hc
      rw [dif_neg hnv, dif_pos ⟨hye, rfl⟩]
    · unfold InteriorWall.from_position_and_orientation
      simp only [Pos.y]
      rw [if_pos hye]
  · intro o hnv hnh
    have hok : ∃ iw, InteriorWall.new W H x y o = Except.ok iw := by
      unfold InteriorWall.new
      rw [dif_neg (by omega), dif_neg (by omega), dif_neg hnv, dif_neg hnh]
      exact ⟨_, rfl⟩
    refine ⟨hok, ?_⟩
    cases o with
    | Vertical =>
      unfold InteriorWall.from_position_and_orientation
      simp only [Pos.x, Pos.y]
      have hxne : ¬ x = W - 1 := fun hc => hnv ⟨hc, rfl⟩
      rw [if_neg hxne]
      exact hok
    | Horizontal =>
      unfold InteriorWall.from_position_and_orientation
      simp only [Pos.x, Pos.y]
      have hyne : ¬ y = H - 1 := fun hc => hnh ⟨hc, rfl⟩
      rw [if_neg hyne]
      exact hok

/-- C6 (witness): on a 3×3 grid, a Vertical wall at x = 2 is rejected with the
boundary error and a Vertical wall at x = 1 is accepted, through the claim
theorem applied at concrete inputs. -/
theorem claim_c6_witness :
    (InteriorWall.new 3 3 2 0 Orientation.Vertical = Except.error
      "x coordinate is out of bounds for width (the wall would be on the edge of the maze)") ∧
    (∃ iw, InteriorWall.new 3 3 1 0 Orientation.Vertical = Except.ok iw) :=
  ⟨((claim_c6_boundary_rejection 3 3 2 0 (by decide) (by decide)).1 rfl).1,
   ((claim_c6_boundary_rejection 3 3 1 0 (by decide) (by decide)).2.2
      Orientation.Vertical (by decide) (by decide)).1⟩

/-- C7: `solve` terminates on every maze: with fuel `W * H + 1` — one tick per
loop iteration, at most one pop per grid cell plus the final exit check — the
embedded loop always reaches the success or the frontier-empty exit (`isSome`),
never exhausting its fuel. -/
theorem claim_c7_termination {W H : Nat} (m : WallMaze W H) : (m.solve).isSome :=
  solve_isSome m

/-- C8: the concrete 3×3 scenario: with start (0,0) and end (2,2), adding
Vertical(0,0) succeeds, then Horizontal(0,1) succeeds, and then Vertical(0,1)
fails with the would-make-unsolvable error leaving exactly the first two walls
in the wall list. -/
theorem claim_c8_concrete_scenario :
    c8m0.add_wall ⟨0, 0, Orientation.Vertical⟩ = (Except.ok (), c8m1) ∧
    c8m1.add_wall ⟨0, 1, Orientation.Horizontal⟩ = (Except.ok (), c8m2) ∧
    c8m2.add_wall ⟨0, 1, Orientation.Vertical⟩
      = (Except.error "Wall would make the maze unsolvable", c8m2) := by
  decide

/-- C9 (counterexample): the claim states that no maze produced by the public
constructors ever contains duplicate walls, including `from_walls` with an
arbitrary initial wall collection.  But `from_walls` only checks solvability:
it accepts the duplicated list `[c9w, c9w]` unchanged. -/
theorem claim_c9_counterexample :
    WallMaze.from_walls c9m.start c9m.«end» [c9w, c9w] = Except.ok c9m ∧
    ¬ c9m.walls.Nodup := by
  decide

/-- C9 (amended): mazes built by `new` start duplicate-free, every public
mutation preserves duplicate-freeness (adding a present wall is rejected as a
duplicate), but `from_walls` does not validate duplicates. -/
theorem claim_c9_amended {W H : Nat} :
    (∀ (s e : Pos W H) (m : WallMaze W H),
      WallMaze.new s e = Except.ok m → m.walls.Nodup) ∧
    (∀ (m : WallMaze W H) (op : MazeOp W H),
      m.walls.Nodup → ((applyOp m op).2).walls.Nodup) ∧
    (∀ (m : WallMaze W H) (w : InteriorWall W H), w ∈ m.walls →
      m.add_interior_wall w = (Except.error "Wall already exists in the maze", m)) := by
  refine ⟨?_, ?_, ?_⟩
  · intro s e m hm
    unfold WallMaze.new at hm
    by_cases hse : s = e
    · rw [if_pos hse] at hm
      exact absurd hm (by simp)
    · rw [if_neg hse] at hm
      injection hm with hm
      rw [← hm]
      exact List.nodup_nil
  · exact fun m op h => applyOp_nodup m op h
  · intro m w hw
    unfold WallMaze.add_interior_wall
    rw [if_pos hw]

/-- C9 (witness for the amended statement): adding the already-present wall of
`c9m1` is rejected as a duplicate without changing the maze, by the claim
theorem applied at concrete inputs. -/
theorem claim_c9_amended_witness :
    c9m1.add_interior_wall c9w
      = (Except.error "Wall already exists in the maze", c9m1) :=
  (@claim_c9_amended 2 2).2.2 c9m1 c9w (by decide)

/-- C10: `move_start` with the current end (and `move_end` with the current
start) always succeeds, leaving `start = end`; `solve` on the resulting maze
returns `Ok` with the singleton path — start ≠ end is enforced only by the
constructor `WallMaze::new`, not by the endpoint-moving operations. -/
theorem claim_c10_endpoint_collapse {W H : Nat} (m : WallMaze W H) :
    ((m.move_start m.«end»).1 = Except.ok ()) ∧
    ((m.move_start m.«end»).2).start = ((m.move_start m.«end»).2).«end» ∧
    ((m.move_start m.«end»).2).solve
      = some (Except.ok [((m.move_start m.«end»).2).start]) ∧
    ((m.move_end m.start).1 = Except.ok ()) ∧
    ((m.move_end m.start).2).start = ((m.move_end m.start).2).«end» ∧
    ((m.move_end m.start).2).solve
      = some (Except.ok [((m.move_end m.start).2).start]) := by
  rw [move_start_eq, move_end_eq]
  by_cases h1 : m.«end» = m.start
  · have h2 : m.start = m.«end» := h1.symm
    rw [if_pos h1, if_pos h2]
    exact ⟨rfl, h2, solve_of_start_eq_end m h2, rfl, h2, solve_of_start_eq_end m h2⟩
  · have h2 : ¬ m.start = m.«end» := fun hc => h1 hc.symm
    rw [if_neg h1, if_neg h2]
    exact ⟨rfl, rfl, solve_of_start_eq_end _ rfl, rfl, rfl, solve_of_start_eq_end _ rfl⟩

end MazeSolver
